import Mathlib

/-!
# Verification of the logging-usage checker (`src/main.rs`)

Shallow embedding of the single-file Rust tool that scans a directory tree
for forbidden `log::{info|warn|debug|trace}` calls outside the allowed
module `src/utils/logging`, and theorems checking the specification's
claims against it.

Modelling conventions:
* file text is a `List Char` (one element per character; the scanned
  pattern is ASCII, where character and byte positions coincide — the
  UTF-8 byte view needed for the slicing-safety claim is recovered through
  `utf8Len`);
* a path (`PathBuf`) is its rendered string plus a flag telling whether
  `Path::to_str` succeeds;
* the walkdir pipeline of main.rs:44-53 yields the candidate files in
  traversal order; the scan loop is modelled over that list;
* `fs::read_to_string` is an `Except`: `.error` is a read failure;
* machine integers: all indices are `usize` values well below overflow, so
  they are modelled as `Nat`; Rust's `saturating_sub` is `Nat` subtraction.
-/

namespace LogCheck

/-- Model of a filesystem path (`PathBuf`): `raw` is its rendered form
(`Path::display`), `validUtf8` records whether `Path::to_str` succeeds. -/
structure RPath where
  raw : String
  validUtf8 : Bool
deriving DecidableEq, Repr

/-- Model of `Path::to_str`: the UTF-8 string form when the path is valid UTF-8. -/
def RPath.toStr (p : RPath) : Option String :=
  if p.validUtf8 then some p.raw else none

/-- Model of `Path::display().to_string()` (lossy rendering): `raw`. -/
def RPath.display (p : RPath) : String := p.raw

/-- Rust `str::contains` with a string needle: `needle` occurs as a contiguous
substring of the haystack. -/
def containsSub (needle : List Char) : List Char → Bool
  | [] => needle.isEmpty
  | a :: rest => needle.isPrefixOf (a :: rest) || containsSub needle rest

/-- The function `is_allowed_path` (main.rs:9-14): `s.contains("src/utils/logging") ||
s.ends_with("src/utils/logging.rs")` on the `to_str` form, `false` for a
non-UTF-8 path. -/
def is_allowed_path (p : RPath) : Bool :=
  match p.toStr with
  | some s =>
      containsSub ("src/utils/logging".toList) s.toList
        || ("src/utils/logging.rs".toList).isSuffixOf s.toList
  | none => false

/-! ## The pattern matcher: `\blog::(info|warn|debug|trace)\b`

The regex is fixed, so `find_iter` is embedded directly: an anchored
attempt at each position, advancing to the match end after a hit
(non-overlapping) and by one character otherwise. `\w` is modelled on its
ASCII fragment `[0-9A-Za-z_]`; the pattern itself is ASCII, so the word
boundaries at its edges agree with the Unicode-aware engine for ASCII
neighbours. -/

/-- ASCII word character (`\w`). -/
def isWordChar (c : Char) : Bool := c.isAlphanum || c == '_'

/-- The assertion `\b` just before position `i`, where the character at `i` is a word
character: satisfied at the start of the text or after a non-word char. -/
def boundaryBefore (t : List Char) (i : Nat) : Bool :=
  if i = 0 then true
  else
    match t[i-1]? with
    | some c => !isWordChar c
    | none => true

/-- The assertion `\b` at position `j`, where the character at `j-1` is a word character:
satisfied at the end of the text or before a non-word char. -/
def boundaryAfter (t : List Char) (j : Nat) : Bool :=
  match t[j]? with
  | some c => !isWordChar c
  | none => true

/-- The literal head of the pattern. -/
def logPrefix : List Char := "log::".toList

/-- The severity-level alternation, in the pattern's order. -/
def levelsList : List (List Char) :=
  ["info".toList, "warn".toList, "debug".toList, "trace".toList]

/-- Try each level alternative at position `j`, including the trailing
`\b`; `some e` is the end offset of the successful alternative. -/
def matchLevel (t : List Char) (j : Nat) : Option Nat :=
  levelsList.findSome? fun lvl =>
    if ((t.drop j).take lvl.length == lvl) && boundaryAfter t (j + lvl.length)
    then some (j + lvl.length) else none

/-- One anchored attempt of the regex at position `i`: `some e` when a
match spans `[i, e)`. -/
def matchAt (t : List Char) (i : Nat) : Option Nat :=
  if boundaryBefore t i && ((t.drop i).take 5 == logPrefix)
  then matchLevel t (i + 5) else none

/-- Model of `Regex::find_iter` from position `i`: leftmost, non-overlapping
matches; the search resumes at the end of each (nonempty) match. `fuel`
only bounds the recursion: the position strictly increases each step, so
`t.length` is enough for the scan from 0. -/
def findFrom (t : List Char) : Nat → Nat → List (Nat × Nat)
  | 0, _ => []
  | fuel+1, i =>
    if i < t.length then
      match matchAt t i with
      | some j => (i, j) :: findFrom t fuel j
      | none => findFrom t fuel (i+1)
    else []

/-- All matches of the pattern in `t`, in left-to-right order. -/
def findIter (t : List Char) : List (Nat × Nat) := findFrom t t.length 0

/-! ## The position mapper (main.rs:65-78) -/

/-- Index of the last occurrence of `c` in `l` (`str::rfind`). -/
def rfindPos (l : List Char) (c : Char) : Option Nat :=
  match l with
  | [] => none
  | a :: rest =>
    match rfindPos rest c with
    | some p => some (p + 1)
    | none => if a == c then some 0 else none

/-- Index of the first occurrence of `c` in `l` (`str::find`). -/
def findPos (l : List Char) (c : Char) : Option Nat :=
  match l with
  | [] => none
  | a :: rest => if a == c then some 0 else (findPos rest c).map (· + 1)

/-- The function `calc_col_in_line` (main.rs:32-34): `saturating_sub`, which is exactly
`Nat` subtraction. -/
def calc_col_in_line (_line : List Char)
    (byte_index_in_file line_start_in_file : Nat) : Nat :=
  byte_index_in_file - line_start_in_file

/-- Start offset of the line containing offset `s`: one past the last
newline strictly before `s`, else 0 (main.rs:69-70). -/
def lineStartOf (t : List Char) (s : Nat) : Nat :=
  match rfindPos (t.take s) '\n' with
  | some p => p + 1
  | none => 0

/-- End offset (exclusive) of the line containing offset `s`: the first
newline at or after the line start, else `t.length` (main.rs:71-74). -/
def lineEndOf (t : List Char) (s : Nat) : Nat :=
  match findPos (t.drop (lineStartOf t s)) '\n' with
  | some p => lineStartOf t s + p
  | none => t.length

/-- The record `Violation` (main.rs:16-23). -/
structure Violation where
  file : RPath
  line_no : Nat
  col_start : Nat
  col_end : Nat
  line_text : List Char
deriving DecidableEq, Repr

/-- The loop body of main.rs:65-87 for one match `(s, e)`. -/
def mkViolation (file : RPath) (t : List Char) (s e : Nat) : Violation :=
  let line_no := (t.take s).count '\n' + 1
  let line_start_index := lineStartOf t s
  let line_end_index := lineEndOf t s
  let line_text := (t.take line_end_index).drop line_start_index
  { file := file
    line_no := line_no
    col_start := calc_col_in_line line_text s line_start_index
    col_end := calc_col_in_line line_text e line_start_index
    line_text := line_text }

/-- All violations of one file's text, in match order (main.rs:65-87). -/
def violationsOfText (file : RPath) (t : List Char) : List Violation :=
  (findIter t).map fun m => mkViolation file t m.1 m.2

/-! ## The scan loop (main.rs:44-88) -/

/-- One candidate file as yielded by the walkdir pipeline of main.rs:44-53
(a regular file with extension `rs`, in traversal order): its path and the
result of `fs::read_to_string` (`.error` models a read failure; the
carried string is the I/O error's own text). -/
structure FileEntry where
  path : RPath
  read : Except String (List Char)

/-- The scan loop of main.rs:54-88 over the candidate list, threading the
`files_scanned` counter and the violation accumulator. A read failure
aborts with the `with_context` message naming the path. -/
def scanFiles : List FileEntry → Nat → List Violation →
    Except String (Nat × List Violation)
  | [], n, vs => .ok (n, vs)
  | e :: rest, n, vs =>
    if is_allowed_path e.path then
      scanFiles rest (n + 1) vs
    else
      match e.read with
      | .error _ => .error ("failed to read file " ++ e.path.display)
      | .ok text => scanFiles rest (n + 1) (vs ++ violationsOfText e.path text)

/-- The whole scan: counter and accumulator start at zero. -/
def runScan (entries : List FileEntry) : Except String (Nat × List Violation) :=
  scanFiles entries 0 []

/-! ## Aggregation and the reporter (main.rs:90-167) -/

/-- Strict order on the `BTreeMap` keys. `PathBuf`'s `Ord` compares
components lexicographically; for the paths of one scanned tree (a common
root, standard separators) this is byte-lexicographic comparison of the
rendered path, modelled here on `raw` with the UTF-8 flag as tie-break. -/
def pathLt (p q : RPath) : Prop :=
  p.raw < q.raw ∨ (p.raw = q.raw ∧ p.validUtf8 < q.validUtf8)

instance : DecidableRel pathLt := fun p q => by
  unfold pathLt; infer_instance

/-- Ordered-insert increment, refining
`*per_file_count.entry(v.file.clone()).or_default() += 1` (main.rs:91-94):
the association list stands for the `BTreeMap`, kept sorted by `pathLt`. -/
def insertCount (k : RPath) : List (RPath × Nat) → List (RPath × Nat)
  | [] => [(k, 1)]
  | (k', n) :: rest =>
    if k = k' then (k', n + 1) :: rest
    else if pathLt k k' then (k, 1) :: (k', n) :: rest
    else (k', n) :: insertCount k rest

/-- The per-file count map, built from the violations in order. -/
def perFileCount (vs : List Violation) : List (RPath × Nat) :=
  vs.foldl (fun m v => insertCount v.file m) []

/-- Sum of the counts of the aggregation map. -/
def sumCounts (m : List (RPath × Nat)) : Nat :=
  (m.map Prod.snd).sum

/-- What a completed run of `main` (main.rs:36-167) computes; the `Err`
branch of `fn main() -> Result<()>` produces no `Report` at all. `elapsed`
is the clock reading shown in the header. `exit_code` is 0 from
`return Ok(())` with no violations, else 1 from `std::process::exit(1)`. -/
structure Report where
  files_scanned : Nat
  elapsed : Nat
  violations : List Violation
  per_file : List (RPath × Nat)
  exit_code : Nat
deriving Repr

/-- The function `main` (main.rs:36-167), with `clock` modelling `start.elapsed()`. -/
def runMain (clock : Nat) (entries : List FileEntry) : Except String Report :=
  match runScan entries with
  | .error msg => .error msg
  | .ok (n, vs) =>
      .ok { files_scanned := n
            elapsed := clock
            violations := vs
            per_file := perFileCount vs
            exit_code := if vs.length = 0 then 0 else 1 }

/-- The process exit status. On `Err` from `fn main() -> Result<()>` the
Rust runtime prints the error and exits with `ExitCode::FAILURE`, which is
`libc::EXIT_FAILURE = 1` on the Linux target. -/
def processExit (clock : Nat) (entries : List FileEntry) : Nat :=
  match runMain clock entries with
  | .error _ => 1
  | .ok r => r.exit_code

/-! ## UTF-8 byte view (for the slicing safety of `highlight_match`) -/

/-- Number of UTF-8 bytes encoding a character sequence. -/
def utf8Len (l : List Char) : Nat := (l.map Char.utf8Size).sum

/-- Offset `n` is a byte offset on a UTF-8 character boundary of `l` (so a Rust
string slice of the encoding of `l` may start or end there). -/
def IsCharBoundary (l : List Char) (n : Nat) : Prop :=
  ∃ k, k ≤ l.length ∧ n = utf8Len (l.take k)

/-! ## Specifications of the search primitives -/

theorem rfindPos_eq_none {l : List Char} {c : Char}
    (h : rfindPos l c = none) : c ∉ l := by
  induction l with
  | nil => simp
  | cons a rest ih =>
    rw [rfindPos] at h
    cases hr : rfindPos rest c with
    | some p' => rw [hr] at h; cases h
    | none =>
      rw [hr] at h
      by_cases hc : a == c
      · rw [if_pos hc] at h; cases h
      · rw [if_neg hc] at h
        intro hmem
        rcases List.mem_cons.mp hmem with h1 | h1
        · exact hc (by simp [h1])
        · exact ih hr h1

theorem rfindPos_eq_some {l : List Char} {c : Char} {p : Nat}
    (h : rfindPos l c = some p) :
    p < l.length ∧ l[p]? = some c ∧
      ∀ q, p < q → q < l.length → l[q]? ≠ some c := by
  induction l generalizing p with
  | nil => simp [rfindPos] at h
  | cons a rest ih =>
    rw [rfindPos] at h
    cases hr : rfindPos rest c with
    | some p' =>
      rw [hr] at h
      cases h
      obtain ⟨h1, h2, h3⟩ := ih hr
      refine ⟨by simpa using h1, by simpa using h2, ?_⟩
      intro q hq hql
      cases q with
      | zero => omega
      | succ q' =>
        simp only [List.getElem?_cons_succ]
        exact h3 q' (by omega) (by simpa using hql)
    | none =>
      rw [hr] at h
      by_cases hc : a == c
      · rw [if_pos hc] at h
        cases h
        refine ⟨by simp, by simpa using (beq_iff_eq.mp hc ▸ rfl), ?_⟩
        intro q hq hql hcontra
        cases q with
        | zero => omega
        | succ q' =>
          simp only [List.getElem?_cons_succ] at hcontra
          exact rfindPos_eq_none hr (List.mem_iff_getElem?.mpr ⟨q', hcontra⟩)
      · rw [if_neg hc] at h
        cases h

theorem findPos_eq_some {l : List Char} {c : Char} {p : Nat}
    (h : findPos l c = some p) :
    p < l.length ∧ l[p]? = some c ∧ ∀ q, q < p → l[q]? ≠ some c := by
  induction l generalizing p with
  | nil => simp [findPos] at h
  | cons a rest ih =>
    rw [findPos] at h
    by_cases hc : a == c
    · rw [if_pos hc] at h
      cases h
      exact ⟨by simp, by simpa using (beq_iff_eq.mp hc ▸ rfl), by omega⟩
    · rw [if_neg hc] at h
      cases hf : findPos rest c with
      | none => rw [hf] at h; cases h
      | some p' =>
        rw [hf] at h
        simp only [Option.map_some', Option.some.injEq] at h
        subst h
        obtain ⟨h1, h2, h3⟩ := ih hf
        refine ⟨by simpa using h1, by simpa using h2, ?_⟩
        intro q hq
        cases q with
        | zero =>
          simp only [List.getElem?_cons_zero, ne_eq, Option.some.injEq]
          intro hac; exact hc (by simp [hac])
        | succ q' =>
          simp only [List.getElem?_cons_succ]
          exact h3 q' (by omega)

theorem findPos_eq_none {l : List Char} {c : Char}
    (h : findPos l c = none) : c ∉ l := by
  induction l with
  | nil => simp
  | cons a rest ih =>
    rw [findPos] at h
    by_cases hc : a == c
    · rw [if_pos hc] at h; cases h
    · rw [if_neg hc] at h
      cases hf : findPos rest c with
      | some p' => rw [hf] at h; cases h
      | none =>
        intro hmem
        rcases List.mem_cons.mp hmem with h1 | h1
        · exact hc (by simp [h1])
        · exact ih hf h1

/-! ## Anatomy of the line containing an offset -/

theorem lineStartOf_le (t : List Char) (s : Nat) : lineStartOf t s ≤ s := by
  unfold lineStartOf
  split
  · next p heq =>
    have h1 := (rfindPos_eq_some heq).1
    rw [List.length_take] at h1
    omega
  · exact Nat.zero_le s

theorem lineStartOf_le_length (t : List Char) (s : Nat) :
    lineStartOf t s ≤ t.length := by
  unfold lineStartOf
  split
  · next p heq =>
    have h1 := (rfindPos_eq_some heq).1
    rw [List.length_take] at h1
    omega
  · exact Nat.zero_le _

/-- The line start is 0 or one past a newline. -/
theorem lineStartOf_cases (t : List Char) (s : Nat) :
    lineStartOf t s = 0 ∨
      ∃ p, lineStartOf t s = p + 1 ∧ p < s ∧ t[p]? = some '\n' := by
  unfold lineStartOf
  split
  · next p heq =>
    obtain ⟨h1, h2, _⟩ := rfindPos_eq_some heq
    rw [List.length_take] at h1
    refine Or.inr ⟨p, rfl, by omega, ?_⟩
    rwa [List.getElem?_take_of_lt (by omega)] at h2
  · exact Or.inl rfl

/-- No newline between the line start and `s` (the match offset). -/
theorem no_newline_before_start (t : List Char) (s : Nat) :
    ∀ q, lineStartOf t s ≤ q → q < s → t[q]? ≠ some '\n' := by
  intro q hq1 hq2
  by_cases hlen : q < t.length
  · have htake : (t.take s)[q]? = t[q]? := List.getElem?_take_of_lt hq2
    unfold lineStartOf at hq1
    split at hq1
    · next p heq =>
      intro hcontra
      exact (rfindPos_eq_some heq).2.2 q (by omega)
        (by rw [List.length_take]; omega) (htake.trans hcontra)
    · next heq =>
      intro hcontra
      exact rfindPos_eq_none heq
        (List.mem_iff_getElem?.mpr ⟨q, htake.trans hcontra⟩)
  · rw [List.getElem?_eq_none (by omega)]
    simp

theorem lineStartOf_le_lineEndOf (t : List Char) (s : Nat) :
    lineStartOf t s ≤ lineEndOf t s := by
  unfold lineEndOf
  split
  · omega
  · exact lineStartOf_le_length t s

theorem lineEndOf_le_length (t : List Char) (s : Nat) :
    lineEndOf t s ≤ t.length := by
  unfold lineEndOf
  split
  · next p heq =>
    have h1 := (findPos_eq_some heq).1
    rw [List.length_drop] at h1
    omega
  · exact Nat.le_refl _

/-- The line end is the end of the text or sits on a newline. -/
theorem lineEndOf_cases (t : List Char) (s : Nat) :
    lineEndOf t s = t.length ∨ t[lineEndOf t s]? = some '\n' := by
  unfold lineEndOf
  split
  · next p heq =>
    obtain ⟨_, h2, _⟩ := findPos_eq_some heq
    rw [List.getElem?_drop] at h2
    exact Or.inr h2
  · exact Or.inl rfl

/-- No newline strictly inside the extracted line. -/
theorem no_newline_in_line (t : List Char) (s : Nat) :
    ∀ q, lineStartOf t s ≤ q → q < lineEndOf t s → t[q]? ≠ some '\n' := by
  intro q hq1 hq2
  unfold lineEndOf at hq2
  split at hq2
  · next p heq =>
    intro hcontra
    have hd : (t.drop (lineStartOf t s))[q - lineStartOf t s]? = some '\n' := by
      rw [List.getElem?_drop, Nat.add_sub_cancel' hq1]
      exact hcontra
    exact (findPos_eq_some heq).2.2 _ (by omega) hd
  · next heq =>
    intro hcontra
    have hd : t[lineStartOf t s + (q - lineStartOf t s)]? = some '\n' := by
      rwa [Nat.add_sub_cancel' hq1]
    rw [← List.getElem?_drop] at hd
    exact findPos_eq_none heq (List.mem_iff_getElem?.mpr ⟨_, hd⟩)

/-- The match offset `s` lies before the end of its line. -/
theorem self_le_lineEndOf (t : List Char) (s : Nat) (hs : s ≤ t.length) :
    s ≤ lineEndOf t s := by
  by_contra hlt
  push_neg at hlt
  rcases lineEndOf_cases t s with h | h
  · omega
  · exact no_newline_before_start t s (lineEndOf t s)
      (lineStartOf_le_lineEndOf t s) (by omega) h

/-- The text of the line containing offset `s`, as the loop body of
main.rs:76 extracts it. -/
def lineTextOf (t : List Char) (s : Nat) : List Char :=
  (t.take (lineEndOf t s)).drop (lineStartOf t s)

theorem mkViolation_eq (file : RPath) (t : List Char) (s e : Nat) :
    mkViolation file t s e =
      { file := file
        line_no := (t.take s).count '\n' + 1
        col_start := s - lineStartOf t s
        col_end := e - lineStartOf t s
        line_text := lineTextOf t s } := rfl

theorem lineTextOf_length (t : List Char) (s : Nat) :
    (lineTextOf t s).length = lineEndOf t s - lineStartOf t s := by
  unfold lineTextOf
  rw [List.length_drop, List.length_take]
  have := lineEndOf_le_length t s
  omega

theorem lineTextOf_getElem? (t : List Char) (s m : Nat)
    (hm : lineStartOf t s + m < lineEndOf t s) :
    (lineTextOf t s)[m]? = t[lineStartOf t s + m]? := by
  unfold lineTextOf
  rw [List.getElem?_drop, List.getElem?_take_of_lt hm]

theorem newline_not_mem_lineTextOf (t : List Char) (s : Nat) :
    '\n' ∉ lineTextOf t s := by
  intro hmem
  obtain ⟨m, hm⟩ := List.mem_iff_getElem?.mp hmem
  have hlt : m < (lineTextOf t s).length :=
    (List.getElem?_eq_some.mp hm).1
  rw [lineTextOf_length] at hlt
  rw [lineTextOf_getElem? t s m (by omega)] at hm
  exact no_newline_in_line t s _ (by omega) (by omega) hm

/-- The text splits as prefix, containing line, suffix. -/
theorem lineTextOf_decomp (t : List Char) (s : Nat) :
    t = t.take (lineStartOf t s) ++ lineTextOf t s ++ t.drop (lineEndOf t s) := by
  have h1 : (t.take (lineEndOf t s)).take (lineStartOf t s)
      = t.take (lineStartOf t s) := by
    rw [List.take_take, inf_eq_left.mpr (lineStartOf_le_lineEndOf t s)]
  have h2 : t.take (lineStartOf t s) ++ lineTextOf t s
      = t.take (lineEndOf t s) := by
    rw [lineTextOf, ← h1, List.take_append_drop]
  rw [h2, List.take_append_drop]

/-! ## Soundness of the matcher -/

theorem findSome?_eq_some_ex {α β : Type} {f : α → Option β} :
    ∀ {l : List α} {b : β}, l.findSome? f = some b → ∃ a ∈ l, f a = some b := by
  intro l
  induction l with
  | nil => intro b h; simp [List.findSome?_nil] at h
  | cons a rest ih =>
    intro b h
    rw [List.findSome?_cons] at h
    cases hfa : f a with
    | some b' =>
      rw [hfa] at h
      cases h
      exact ⟨a, List.mem_cons_self a rest, hfa⟩
    | none =>
      rw [hfa] at h
      obtain ⟨a', ha', hfa'⟩ := ih h
      exact ⟨a', List.mem_cons_of_mem a ha', hfa'⟩

theorem matchAt_eq_some {t : List Char} {i j : Nat} (h : matchAt t i = some j) :
    boundaryBefore t i = true ∧
    ∃ lvl ∈ levelsList, j = i + 5 + lvl.length ∧ j ≤ t.length ∧
      (t.drop i).take (5 + lvl.length) = logPrefix ++ lvl ∧
      boundaryAfter t j = true := by
  unfold matchAt at h
  split at h
  case isFalse => cases h
  case isTrue hcond =>
    rw [Bool.and_eq_true] at hcond
    obtain ⟨hbb, hpre⟩ := hcond
    have hpre' : (t.drop i).take 5 = logPrefix := beq_iff_eq.mp hpre
    unfold matchLevel at h
    obtain ⟨lvl, hmem, hf⟩ := findSome?_eq_some_ex h
    split at hf
    case isFalse => cases hf
    case isTrue hcond2 =>
      rw [Bool.and_eq_true] at hcond2
      obtain ⟨hlvl, hba⟩ := hcond2
      have hlvl' : (t.drop (i + 5)).take lvl.length = lvl := beq_iff_eq.mp hlvl
      cases hf
      have hi5 : i + 5 ≤ t.length := by
        have hlen := congrArg List.length hpre'
        rw [List.length_take, List.length_drop] at hlen
        have h5 : logPrefix.length = 5 := rfl
        rw [h5] at hlen
        have := min_eq_left_iff.mp hlen
        omega
      have hj : i + 5 + lvl.length ≤ t.length := by
        have hlen := congrArg List.length hlvl'
        rw [List.length_take, List.length_drop] at hlen
        have := min_eq_left_iff.mp hlen
        omega
      refine ⟨hbb, lvl, hmem, by omega, by omega, ?_, ?_⟩
      · rw [List.take_add, hpre']
        congr 1
        rw [List.drop_drop]
        exact hlvl'
      · exact hba

theorem matchAt_no_newline {t : List Char} {i j : Nat}
    (h : matchAt t i = some j) :
    ∀ q, i ≤ q → q < j → t[q]? ≠ some '\n' := by
  obtain ⟨-, lvl, hmem, hj, hjlen, hslice, -⟩ := matchAt_eq_some h
  intro q hq1 hq2 hcontra
  have hqi : q - i < 5 + lvl.length := by omega
  have hel : ((t.drop i).take (5 + lvl.length))[q - i]? = some '\n' := by
    rw [List.getElem?_take_of_lt hqi, List.getElem?_drop,
      Nat.add_sub_cancel' hq1]
    exact hcontra
  rw [hslice] at hel
  have hmem2 : '\n' ∈ logPrefix ++ lvl := List.mem_iff_getElem?.mpr ⟨_, hel⟩
  have hno : ∀ l ∈ levelsList, '\n' ∉ logPrefix ++ l := by decide
  exact hno lvl hmem hmem2

theorem findFrom_sound (t : List Char) :
    ∀ fuel i m, m ∈ findFrom t fuel i → matchAt t m.1 = some m.2 := by
  intro fuel
  induction fuel with
  | zero => intro i m hm; simp [findFrom] at hm
  | succ fuel ih =>
    intro i m hm
    rw [findFrom] at hm
    split at hm
    · split at hm
      · next j hma =>
        rcases List.mem_cons.mp hm with h1 | h1
        · subst h1; exact hma
        · exact ih _ m h1
      · exact ih _ m hm
    · simp at hm

theorem findIter_sound (t : List Char) {m : Nat × Nat} (hm : m ∈ findIter t) :
    matchAt t m.1 = some m.2 :=
  findFrom_sound t t.length 0 m hm

theorem findIter_bounds (t : List Char) {m : Nat × Nat} (hm : m ∈ findIter t) :
    m.1 ≤ m.2 ∧ m.2 ≤ t.length := by
  obtain ⟨-, lvl, -, hj, hjlen, -, -⟩ := matchAt_eq_some (findIter_sound t hm)
  omega

/-! ## Facts about the scan loop -/

theorem violationsOfText_file {p : RPath} {t : List Char} {v : Violation}
    (hv : v ∈ violationsOfText p t) : v.file = p := by
  obtain ⟨m, _, h⟩ := List.mem_map.mp hv
  rw [← h]
  rfl

theorem violationsOfText_mem {p : RPath} {t : List Char} {v : Violation}
    (hv : v ∈ violationsOfText p t) :
    ∃ m ∈ findIter t, v = mkViolation p t m.1 m.2 := by
  obtain ⟨m, hm, h⟩ := List.mem_map.mp hv
  exact ⟨m, hm, h.symm⟩

/-- Invariant of the scan loop in its successful runs: the counter counts
every candidate (also the exempt ones), and every produced violation comes
from matching the text of a non-exempt, successfully read candidate. -/
theorem scanFiles_ok_inv :
    ∀ (entries : List FileEntry) (n0 : Nat) (vs0 : List Violation)
      (n : Nat) (vs : List Violation),
      scanFiles entries n0 vs0 = .ok (n, vs) →
      n = n0 + entries.length ∧
      ∀ v ∈ vs, v ∈ vs0 ∨ ∃ e ∈ entries, ∃ text,
        is_allowed_path e.path = false ∧ e.read = .ok text ∧
        v ∈ violationsOfText e.path text := by
  intro entries
  induction entries with
  | nil =>
    intro n0 vs0 n vs h
    rw [scanFiles] at h
    cases h
    exact ⟨by simp, fun v hv => Or.inl hv⟩
  | cons e rest ih =>
    intro n0 vs0 n vs h
    rw [scanFiles] at h
    split at h
    · next hall =>
      obtain ⟨h1, h2⟩ := ih _ _ _ _ h
      refine ⟨by simp only [List.length_cons]; omega, ?_⟩
      intro v hv
      rcases h2 v hv with h3 | ⟨e', he', text, h4⟩
      · exact Or.inl h3
      · exact Or.inr ⟨e', List.mem_cons_of_mem _ he', text, h4⟩
    · next hall =>
      split at h
      · next msg hread => cases h
      · next text hread =>
        obtain ⟨h1, h2⟩ := ih _ _ _ _ h
        refine ⟨by simp only [List.length_cons]; omega, ?_⟩
        intro v hv
        rcases h2 v hv with h3 | ⟨e', he', text', h4⟩
        · rcases List.mem_append.mp h3 with h5 | h5
          · exact Or.inl h5
          · exact Or.inr ⟨e, List.mem_cons_self e rest, text,
              Bool.not_eq_true _ ▸ Bool.of_not_eq_true hall, hread, h5⟩
        · exact Or.inr ⟨e', List.mem_cons_of_mem _ he', text', h4⟩

/-- The scan aborts at the first non-exempt candidate whose read fails,
whatever comes after it in the traversal. -/
theorem scanFiles_error_of_bad (bad : FileEntry) (msg : String)
    (hall : is_allowed_path bad.path = false) (hread : bad.read = .error msg) :
    ∀ (pre : List FileEntry), (∀ e ∈ pre, is_allowed_path e.path = true ∨
        ∃ text, e.read = .ok text) →
      ∀ (post : List FileEntry) (n0 : Nat) (vs0 : List Violation),
      scanFiles (pre ++ bad :: post) n0 vs0
        = .error ("failed to read file " ++ bad.path.display) := by
  intro pre
  induction pre with
  | nil =>
    intro _ post n0 vs0
    rw [List.nil_append, scanFiles, hall]
    simp only [Bool.false_eq_true, if_false, hread]
  | cons e pre' ih =>
    intro hpre post n0 vs0
    rw [List.cons_append, scanFiles]
    have htail : ∀ e' ∈ pre', is_allowed_path e'.path = true ∨
        ∃ text, e'.read = .ok text :=
      fun e' he' => hpre e' (List.mem_cons_of_mem _ he')
    rcases hpre e (List.mem_cons_self e pre') with h1 | ⟨text, h1⟩
    · rw [h1]
      simp only [if_true]
      exact ih htail post _ _
    · by_cases h2 : is_allowed_path e.path
      · rw [h2]
        simp only [if_true]
        exact ih htail post _ _
      · simp only [Bool.not_eq_true] at h2
        rw [h2]
        simp only [Bool.false_eq_true, if_false, h1]
        exact ih htail post _ _

/-! ## Facts about the aggregation map -/

theorem pathLt_trans {p q r : RPath} (h1 : pathLt p q) (h2 : pathLt q r) :
    pathLt p r := by
  rcases h1 with h1 | ⟨h1e, h1b⟩ <;> rcases h2 with h2 | ⟨h2e, h2b⟩
  · exact Or.inl (lt_trans h1 h2)
  · exact Or.inl (h2e ▸ h1)
  · exact Or.inl (h1e ▸ h2)
  · exact Or.inr ⟨h1e.trans h2e, lt_trans h1b h2b⟩

theorem pathLt_total (p q : RPath) : p = q ∨ pathLt p q ∨ pathLt q p := by
  rcases lt_trichotomy p.raw q.raw with h | h | h
  · exact Or.inr (Or.inl (Or.inl h))
  · rcases lt_trichotomy p.validUtf8 q.validUtf8 with h2 | h2 | h2
    · exact Or.inr (Or.inl (Or.inr ⟨h, h2⟩))
    · left; cases p; cases q; simp_all
    · exact Or.inr (Or.inr (Or.inr ⟨h.symm, h2⟩))
  · exact Or.inr (Or.inr (Or.inl h))

theorem sumCounts_cons (kv : RPath × Nat) (m : List (RPath × Nat)) :
    sumCounts (kv :: m) = kv.2 + sumCounts m := by
  simp [sumCounts]

theorem sumCounts_insertCount (k : RPath) :
    ∀ m, sumCounts (insertCount k m) = sumCounts m + 1 := by
  intro m
  induction m with
  | nil => simp [insertCount, sumCounts]
  | cons kv rest ih =>
    obtain ⟨k', cnt⟩ := kv
    rw [insertCount]
    split
    · simp only [sumCounts_cons]; omega
    · split
      · simp only [sumCounts_cons]; omega
      · simp only [sumCounts_cons, ih]; omega

theorem insertCount_mem_key (k : RPath) :
    ∀ m b, b ∈ insertCount k m → b.1 = k ∨ b.1 ∈ m.map Prod.fst := by
  intro m
  induction m with
  | nil =>
    intro b hb
    simp only [insertCount, List.mem_singleton] at hb
    subst hb
    exact Or.inl rfl
  | cons kv rest ih =>
    obtain ⟨k', cnt⟩ := kv
    intro b hb
    rw [insertCount] at hb
    split at hb
    · rcases List.mem_cons.mp hb with h | h
      · subst h; right; simp
      · right
        simp only [List.map_cons, List.mem_cons]
        exact Or.inr (List.mem_map_of_mem Prod.fst h)
    · split at hb
      · rcases List.mem_cons.mp hb with h | h
        · subst h; exact Or.inl rfl
        · rcases List.mem_cons.mp h with h' | h'
          · subst h'; right; simp
          · right
            simp only [List.map_cons, List.mem_cons]
            exact Or.inr (List.mem_map_of_mem Prod.fst h')
      · rcases List.mem_cons.mp hb with h | h
        · subst h; right; simp
        · rcases ih b h with h' | h'
          · exact Or.inl h'
          · right
            simp only [List.map_cons, List.mem_cons]
            exact Or.inr h'

theorem pairwise_insertCount (k : RPath) :
    ∀ m, List.Pairwise (fun a b : RPath × Nat => pathLt a.1 b.1) m →
      List.Pairwise (fun a b : RPath × Nat => pathLt a.1 b.1)
        (insertCount k m) := by
  intro m
  induction m with
  | nil => intro _; simp [insertCount]
  | cons kv rest ih =>
    obtain ⟨k', cnt⟩ := kv
    intro hp
    rw [List.pairwise_cons] at hp
    obtain ⟨hhead, htail⟩ := hp
    rw [insertCount]
    split
    · next heq =>
      rw [List.pairwise_cons]
      exact ⟨fun b hb => hhead b hb, htail⟩
    · next hne =>
      split
      · next hlt =>
        rw [List.pairwise_cons]
        refine ⟨?_, ?_⟩
        · intro b hb
          rcases List.mem_cons.mp hb with h | h
          · subst h; exact hlt
          · exact pathLt_trans hlt (hhead b h)
        · rw [List.pairwise_cons]
          exact ⟨hhead, htail⟩
      · next hnlt =>
        have hk'k : pathLt k' k := by
          rcases pathLt_total k k' with h | h | h
          · exact absurd h hne
          · exact absurd h hnlt
          · exact h
        rw [List.pairwise_cons]
        refine ⟨?_, ih htail⟩
        intro b hb
        rcases insertCount_mem_key k rest b hb with h | h
        · show pathLt k' b.1
          rw [h]
          exact hk'k
        · obtain ⟨a, ha, hfa⟩ := List.mem_map.mp h
          show pathLt k' b.1
          rw [← hfa]
          exact hhead a ha

theorem perFileCount_aux :
    ∀ (vs : List Violation) (m : List (RPath × Nat)),
      sumCounts (vs.foldl (fun m v => insertCount v.file m) m)
          = sumCounts m + vs.length ∧
      (List.Pairwise (fun a b : RPath × Nat => pathLt a.1 b.1) m →
        List.Pairwise (fun a b : RPath × Nat => pathLt a.1 b.1)
          (vs.foldl (fun m v => insertCount v.file m) m)) := by
  intro vs
  induction vs with
  | nil => intro m; simp
  | cons v rest ih =>
    intro m
    rw [List.foldl_cons]
    obtain ⟨h1, h2⟩ := ih (insertCount v.file m)
    refine ⟨?_, ?_⟩
    · rw [h1, sumCounts_insertCount]
      simp only [List.length_cons]
      omega
    · intro hp
      exact h2 (pairwise_insertCount v.file m hp)

/-! ## Per-violation position facts -/

/-- For a real match, the match lies inside the extracted line. -/
theorem match_inside_line (t : List Char) {m : Nat × Nat}
    (hm : m ∈ findIter t) :
    lineStartOf t m.1 ≤ m.1 ∧ m.1 ≤ m.2 ∧ m.2 ≤ lineEndOf t m.1 ∧
      lineEndOf t m.1 ≤ t.length := by
  obtain ⟨hse, hel⟩ := findIter_bounds t hm
  have hnl := matchAt_no_newline (findIter_sound t hm)
  have hls := lineStartOf_le t m.1
  have hsle : m.1 ≤ t.length := le_trans hse hel
  have hle : m.2 ≤ lineEndOf t m.1 := by
    by_contra hlt
    push_neg at hlt
    have h1 : m.1 ≤ lineEndOf t m.1 := self_le_lineEndOf t m.1 hsle
    rcases lineEndOf_cases t m.1 with h | h
    · omega
    · exact hnl (lineEndOf t m.1) h1 hlt h
  exact ⟨hls, hse, hle, lineEndOf_le_length t m.1⟩

theorem mkViolation_cols (p : RPath) (t : List Char) (m : Nat × Nat)
    (hm : m ∈ findIter t) :
    (mkViolation p t m.1 m.2).col_start ≤ (mkViolation p t m.1 m.2).col_end ∧
    (mkViolation p t m.1 m.2).col_end
      ≤ (mkViolation p t m.1 m.2).line_text.length := by
  obtain ⟨hls, hse, hle, hlen⟩ := match_inside_line t hm
  rw [mkViolation_eq]
  simp only [lineTextOf_length]
  omega

/-! ## UTF-8 byte views of the computed offsets -/

theorem utf8Len_append (a b : List Char) :
    utf8Len (a ++ b) = utf8Len a + utf8Len b := by
  simp [utf8Len]

theorem utf8Len_take_le (l : List Char) (k : Nat) :
    utf8Len (l.take k) ≤ utf8Len l := by
  conv_rhs => rw [← List.take_append_drop k l]
  rw [utf8Len_append]
  omega

/-- The byte offset of an in-line position, relative to the byte offset of
the line start, is the byte length of the corresponding prefix of the
line's text. -/
theorem utf8Len_take_sub (t : List Char) (s x : Nat)
    (hx1 : lineStartOf t s ≤ x) (hx2 : x ≤ lineEndOf t s) :
    utf8Len (t.take x) - utf8Len (t.take (lineStartOf t s))
      = utf8Len ((lineTextOf t s).take (x - lineStartOf t s)) := by
  have e1 : (lineTextOf t s).take (x - lineStartOf t s)
      = (t.drop (lineStartOf t s)).take (x - lineStartOf t s) := by
    rw [lineTextOf, List.drop_take, List.take_take]
    congr 1
    exact inf_eq_left.mpr (by omega)
  have e2 : (t.take x).drop (lineStartOf t s)
      = (t.drop (lineStartOf t s)).take (x - lineStartOf t s) :=
    List.drop_take x (lineStartOf t s) t
  have hsplit : t.take x = t.take (lineStartOf t s)
      ++ (lineTextOf t s).take (x - lineStartOf t s) := by
    conv_lhs => rw [← List.take_append_drop (lineStartOf t s) (t.take x)]
    rw [List.take_take, inf_eq_left.mpr hx1, e2, ← e1]
  rw [hsplit, utf8Len_append, Nat.add_sub_cancel_left]

/-! ## The claims -/

/-- C1, counterexample: the claim asserts that when the scan cannot
complete due to an I/O error the exit status is non-zero and distinct
from 1. On a run whose only candidate file fails to read, the scan does
not complete (`runMain` is an error, so no report), yet the process exit
status is 1 — Rust's `fn main() -> Result<()>` maps `Err` to
`ExitCode::FAILURE = 1` on Linux — the same status as "violations
found", so it is not distinct from 1. -/
theorem exit_code_error_not_distinct :
    (runMain 0 [⟨⟨"a.rs", true⟩, Except.error "permission denied"⟩]).isOk
        = false ∧
    processExit 0 [⟨⟨"a.rs", true⟩, Except.error "permission denied"⟩] = 1 :=
  ⟨rfl, rfl⟩

/-- C1, amended: the exit status is 0 when the scan completes with zero
violations and 1 when it completes with one or more violations; when the
scan cannot complete due to an I/O error the exit status is the runtime's
generic failure status, which is also 1 on this target, so the exit code
alone does not distinguish "found problems" from "could not run". -/
theorem exit_code_spec (clock : Nat) (entries : List FileEntry) :
    ((runMain clock entries).isOk = false → processExit clock entries = 1) ∧
    (∀ n vs, runScan entries = .ok (n, vs) →
      (vs = [] → processExit clock entries = 0) ∧
      (vs ≠ [] → processExit clock entries = 1)) := by
  cases h : runScan entries with
  | error msg =>
    refine ⟨fun _ => ?_, fun n vs hcontra => ?_⟩
    · simp [processExit, runMain, h]
    · cases hcontra
  | ok p =>
    obtain ⟨n, vs⟩ := p
    refine ⟨fun hok => ?_, fun n' vs' heq => ?_⟩
    · exfalso
      simp [runMain, h, Except.isOk, Except.toBool] at hok
    · injection heq with heq'
      injection heq' with heq1 heq2
      subst heq1
      subst heq2
      constructor
      · intro hvs
        simp [processExit, runMain, h, hvs]
      · intro hvs
        simp [processExit, runMain, h, hvs]

/-- Witness for C1 (amended): a failing read exits 1; an empty scan
exits 0. -/
theorem exit_code_spec_witness :
    processExit 0 [⟨⟨"a.rs", true⟩, Except.error "permission denied"⟩] = 1 ∧
    processExit 0 ([] : List FileEntry) = 0 :=
  ⟨(exit_code_spec 0 [⟨⟨"a.rs", true⟩, Except.error "permission denied"⟩]).1
      rfl,
   ((exit_code_spec 0 []).2 0 [] rfl).1 rfl⟩

/-- C2: in a completed scan, no violation is ever produced for a file
whose path string contains the allowed-module segment
`src/utils/logging`, no matter what the file contains, while the
scanned-file counter counts every candidate — exempt files included,
because the counter is incremented before the exemption check. -/
theorem allowed_module_exempt_but_counted
    (entries : List FileEntry) (n : Nat) (vs : List Violation)
    (h : runScan entries = .ok (n, vs)) :
    n = entries.length ∧
    ∀ v ∈ vs, ∀ s, v.file.toStr = some s →
      containsSub ("src/utils/logging".toList) s.toList = false := by
  obtain ⟨h1, h2⟩ := scanFiles_ok_inv entries 0 [] n vs h
  refine ⟨by omega, ?_⟩
  intro v hv s hs
  rcases h2 v hv with h3 | ⟨e, _, text, hna, _, hvt⟩
  · simp at h3
  · have hfile : v.file = e.path := violationsOfText_file hvt
    rw [hfile] at hs
    unfold is_allowed_path at hna
    rw [hs] at hna
    simp only [Bool.or_eq_false_iff] at hna
    exact hna.1

/-- Witness for C2: a scan of one exempt file full of matches counts one
file and produces no violations. -/
theorem allowed_module_exempt_but_counted_witness :
    1 = ([⟨⟨"x/src/utils/logging.rs", true⟩,
          Except.ok ("log::info log::warn".toList)⟩] :
        List FileEntry).length ∧
    ∀ v ∈ ([] : List Violation), ∀ s, v.file.toStr = some s →
      containsSub ("src/utils/logging".toList) s.toList = false :=
  allowed_module_exempt_but_counted
    [⟨⟨"x/src/utils/logging.rs", true⟩,
      Except.ok ("log::info log::warn".toList)⟩] 1 [] rfl

/-- C3: every match of the pattern is a word-boundary-delimited
occurrence of `log::` followed by one of info/warn/debug/trace; the
embedded occurrence `xlog::infoy` yields no match, while the standalone
token `log::info` yields exactly one. -/
theorem word_boundary_matching :
    (∀ (t : List Char), ∀ m ∈ findIter t,
        boundaryBefore t m.1 = true ∧ boundaryAfter t m.2 = true ∧
        ∃ lvl ∈ levelsList, (t.drop m.1).take (m.2 - m.1) = logPrefix ++ lvl) ∧
    findIter ("xlog::infoy".toList) = [] ∧
    findIter ("log::info".toList) = [(0, 9)] := by
  refine ⟨?_, by decide, by decide⟩
  intro t m hm
  obtain ⟨hbb, lvl, hmem, hj, hjlen, hslice, hba⟩ :=
    matchAt_eq_some (findIter_sound t hm)
  refine ⟨hbb, hba, lvl, hmem, ?_⟩
  rw [show m.2 - m.1 = 5 + lvl.length by omega]
  exact hslice

/-- Witness for C3: the boundary facts instantiated at the unique match
of the standalone token. -/
theorem word_boundary_matching_witness :
    boundaryBefore ("log::info".toList) 0 = true ∧
    boundaryAfter ("log::info".toList) 9 = true ∧
    ∃ lvl ∈ levelsList,
      (("log::info".toList).drop 0).take (9 - 0) = logPrefix ++ lvl :=
  word_boundary_matching.1 ("log::info".toList) (0, 9) (by decide)

/-- C4: for every match `(s, e)`, the Violation built by the position
mapper has `line_no` equal to the newline count before `s` plus one,
`line_text` equal to the full containing line — the text decomposes as a
prefix ending in a newline (or empty), the newline-free line itself, and
a suffix starting with a newline (or empty) — and columns equal to the
match offsets minus the line's starting offset, with every index kept in
bounds (first and last lines included). -/
theorem position_mapper_correct (file : RPath) (t : List Char) (s e : Nat)
    (hmem : (s, e) ∈ findIter t) :
    ∃ pre suf : List Char,
      t = pre ++ (mkViolation file t s e).line_text ++ suf ∧
      '\n' ∉ (mkViolation file t s e).line_text ∧
      (pre = [] ∨ ∃ pre0, pre = pre0 ++ ['\n']) ∧
      (suf = [] ∨ suf.head? = some '\n') ∧
      (mkViolation file t s e).line_no = pre.count '\n' + 1 ∧
      pre.length ≤ s ∧
      s ≤ pre.length + (mkViolation file t s e).line_text.length ∧
      (mkViolation file t s e).col_start = s - pre.length ∧
      (mkViolation file t s e).col_end = e - pre.length := by
  have hls : lineStartOf t s ≤ s := (match_inside_line t hmem).1
  have hse : s ≤ e := (match_inside_line t hmem).2.1
  have hle : e ≤ lineEndOf t s := (match_inside_line t hmem).2.2.1
  have hlsL : lineStartOf t s ≤ t.length := lineStartOf_le_length t s
  have hplen : (t.take (lineStartOf t s)).length = lineStartOf t s := by
    rw [List.length_take, inf_eq_left.mpr hlsL]
  refine ⟨t.take (lineStartOf t s), t.drop (lineEndOf t s),
    ?_, ?_, ?_, ?_, ?_, ?_, ?_, ?_, ?_⟩
  · simp only [mkViolation_eq]
    exact lineTextOf_decomp t s
  · simp only [mkViolation_eq]
    exact newline_not_mem_lineTextOf t s
  · rcases lineStartOf_cases t s with h0 | ⟨p, hp1, hp2, hp3⟩
    · left; rw [h0, List.take_zero]
    · right
      exact ⟨t.take p, by rw [hp1, List.take_succ, hp3]; rfl⟩
  · rcases lineEndOf_cases t s with h0 | h0
    · left; rw [h0, List.drop_length]
    · right
      rw [List.head?_eq_getElem?, List.getElem?_drop, Nat.add_zero]
      exact h0
  · simp only [mkViolation_eq]
    have hsplit : t.take s = t.take (lineStartOf t s)
        ++ ((t.take s).drop (lineStartOf t s)) := by
      conv_lhs => rw [← List.take_append_drop (lineStartOf t s) (t.take s)]
      rw [List.take_take, inf_eq_left.mpr hls]
    rw [hsplit, List.count_append]
    suffices hz : ((t.take s).drop (lineStartOf t s)).count '\n' = 0 by omega
    rw [List.count_eq_zero]
    intro hmem'
    obtain ⟨mIdx, hmIdx⟩ := List.mem_iff_getElem?.mp hmem'
    have hlt : mIdx < ((t.take s).drop (lineStartOf t s)).length :=
      (List.getElem?_eq_some.mp hmIdx).1
    rw [List.length_drop, List.length_take] at hlt
    have hmin : s ⊓ t.length ≤ s := inf_le_left
    rw [List.getElem?_drop, List.getElem?_take_of_lt (by omega)] at hmIdx
    exact no_newline_before_start t s _ (by omega) (by omega) hmIdx
  · rw [hplen]; exact hls
  · simp only [mkViolation_eq]
    rw [hplen, lineTextOf_length]
    have h1 : s ≤ lineEndOf t s := le_trans hse hle
    have h2 : lineStartOf t s ≤ lineEndOf t s := lineStartOf_le_lineEndOf t s
    omega
  · simp only [mkViolation_eq]
    rw [hplen]
  · simp only [mkViolation_eq]
    rw [hplen]

/-- Witness for C4: the position facts instantiated at the match of
`log::warn` on the second line of a two-line text. -/
theorem position_mapper_correct_witness :
    ∃ pre suf : List Char,
      "a\nlog::warn".toList = pre
          ++ (mkViolation ⟨"w.rs", true⟩ ("a\nlog::warn".toList) 2 11).line_text
          ++ suf ∧
      '\n' ∉ (mkViolation ⟨"w.rs", true⟩ ("a\nlog::warn".toList) 2 11).line_text ∧
      (pre = [] ∨ ∃ pre0, pre = pre0 ++ ['\n']) ∧
      (suf = [] ∨ suf.head? = some '\n') ∧
      (mkViolation ⟨"w.rs", true⟩ ("a\nlog::warn".toList) 2 11).line_no
          = pre.count '\n' + 1 ∧
      pre.length ≤ 2 ∧
      2 ≤ pre.length
          + (mkViolation ⟨"w.rs", true⟩ ("a\nlog::warn".toList) 2 11).line_text.length ∧
      (mkViolation ⟨"w.rs", true⟩ ("a\nlog::warn".toList) 2 11).col_start
          = 2 - pre.length ∧
      (mkViolation ⟨"w.rs", true⟩ ("a\nlog::warn".toList) 2 11).col_end
          = 11 - pre.length :=
  position_mapper_correct ⟨"w.rs", true⟩ ("a\nlog::warn".toList) 2 11 (by decide)

/-- C5: every Violation constructed by a completed scan satisfies
`col_start ≤ col_end ≤ line_text.length`. -/
theorem violation_column_invariant
    (entries : List FileEntry) (n : Nat) (vs : List Violation)
    (h : runScan entries = .ok (n, vs)) :
    ∀ v ∈ vs, v.col_start ≤ v.col_end ∧ v.col_end ≤ v.line_text.length := by
  obtain ⟨-, h2⟩ := scanFiles_ok_inv entries 0 [] n vs h
  intro v hv
  rcases h2 v hv with h3 | ⟨e, -, text, -, -, hvt⟩
  · simp at h3
  · obtain ⟨m, hm, hv'⟩ := violationsOfText_mem hvt
    subst hv'
    exact mkViolation_cols e.path text m hm

/-- Witness for C5: the invariant at the single violation of a one-file
scan. -/
theorem violation_column_invariant_witness :
    (mkViolation ⟨"a.rs", true⟩ ("log::warn x".toList) 0 9).col_start
      ≤ (mkViolation ⟨"a.rs", true⟩ ("log::warn x".toList) 0 9).col_end ∧
    (mkViolation ⟨"a.rs", true⟩ ("log::warn x".toList) 0 9).col_end
      ≤ (mkViolation ⟨"a.rs", true⟩ ("log::warn x".toList) 0 9).line_text.length :=
  violation_column_invariant
    [⟨⟨"a.rs", true⟩, Except.ok ("log::warn x".toList)⟩] 1
    (violationsOfText ⟨"a.rs", true⟩ ("log::warn x".toList)) rfl
    (mkViolation ⟨"a.rs", true⟩ ("log::warn x".toList) 0 9) (by decide)

/-- C6: if reading a candidate, non-exempt file fails, the whole run
aborts with an error naming that path — the result does not depend on
the entries after it (no further file is scanned) — and `runMain`
produces no report at all. -/
theorem read_error_aborts (clock : Nat) (pre post : List FileEntry)
    (bad : FileEntry) (msg : String)
    (hpre : ∀ e ∈ pre, is_allowed_path e.path = true ∨ ∃ text, e.read = .ok text)
    (hbad : is_allowed_path bad.path = false)
    (hread : bad.read = .error msg) :
    runScan (pre ++ bad :: post)
        = .error ("failed to read file " ++ bad.path.display) ∧
    runScan (pre ++ bad :: post) = runScan (pre ++ [bad]) ∧
    runMain clock (pre ++ bad :: post)
        = .error ("failed to read file " ++ bad.path.display) := by
  have h1 : runScan (pre ++ bad :: post)
      = .error ("failed to read file " ++ bad.path.display) :=
    scanFiles_error_of_bad bad msg hbad hread pre hpre post 0 []
  have h2 : runScan (pre ++ [bad])
      = .error ("failed to read file " ++ bad.path.display) :=
    scanFiles_error_of_bad bad msg hbad hread pre hpre [] 0 []
  refine ⟨h1, h1.trans h2.symm, ?_⟩
  rw [runMain, h1]

/-- Witness for C6: one bad file followed by a good one aborts the run. -/
theorem read_error_aborts_witness :
    runScan ([] ++ ⟨⟨"b.rs", true⟩, Except.error "permission denied"⟩
        :: [⟨⟨"c.rs", true⟩, Except.ok []⟩])
      = .error ("failed to read file "
          ++ (RPath.mk "b.rs" true).display) ∧
    runScan ([] ++ ⟨⟨"b.rs", true⟩, Except.error "permission denied"⟩
        :: [⟨⟨"c.rs", true⟩, Except.ok []⟩])
      = runScan ([] ++ [⟨⟨"b.rs", true⟩, Except.error "permission denied"⟩]) ∧
    runMain 0 ([] ++ ⟨⟨"b.rs", true⟩, Except.error "permission denied"⟩
        :: [⟨⟨"c.rs", true⟩, Except.ok []⟩])
      = .error ("failed to read file " ++ (RPath.mk "b.rs" true).display) :=
  read_error_aborts 0 [] [⟨⟨"c.rs", true⟩, Except.ok []⟩]
    ⟨⟨"b.rs", true⟩, Except.error "permission denied"⟩ "permission denied"
    (by intro e he; cases he) rfl rfl

/-- C7: in any completed run, the reported total violation count equals
the sum of the per-file counts of the aggregation map, and the map is
iterated in sorted (strictly increasing) path order. -/
theorem report_total_and_sorted (clock : Nat) (entries : List FileEntry)
    (r : Report) (h : runMain clock entries = .ok r) :
    sumCounts r.per_file = r.violations.length ∧
    List.Sorted pathLt (r.per_file.map Prod.fst) := by
  rw [runMain] at h
  cases hs : runScan entries with
  | error msg => rw [hs] at h; cases h
  | ok p =>
    obtain ⟨n, vs⟩ := p
    rw [hs] at h
    injection h with h'
    subst h'
    obtain ⟨h1, h2⟩ := perFileCount_aux vs []
    constructor
    · simpa [perFileCount, sumCounts] using h1
    · exact List.pairwise_map.mpr (h2 (by simp))

/-- Witness for C7: the count and sortedness at a two-file run with three
violations. -/
theorem report_total_and_sorted_witness :
    sumCounts (perFileCount
        (violationsOfText ⟨"b.rs", true⟩ ("log::info log::warn".toList)
          ++ violationsOfText ⟨"a.rs", true⟩ ("log::trace".toList)))
      = (violationsOfText ⟨"b.rs", true⟩ ("log::info log::warn".toList)
          ++ violationsOfText ⟨"a.rs", true⟩ ("log::trace".toList)).length ∧
    List.Sorted pathLt ((perFileCount
        (violationsOfText ⟨"b.rs", true⟩ ("log::info log::warn".toList)
          ++ violationsOfText ⟨"a.rs", true⟩ ("log::trace".toList))).map
        Prod.fst) :=
  report_total_and_sorted 0
    [⟨⟨"b.rs", true⟩, Except.ok ("log::info log::warn".toList)⟩,
     ⟨⟨"a.rs", true⟩, Except.ok ("log::trace".toList)⟩]
    { files_scanned := 2
      elapsed := 0
      violations := violationsOfText ⟨"b.rs", true⟩ ("log::info log::warn".toList)
        ++ violationsOfText ⟨"a.rs", true⟩ ("log::trace".toList)
      per_file := perFileCount
        (violationsOfText ⟨"b.rs", true⟩ ("log::info log::warn".toList)
          ++ violationsOfText ⟨"a.rs", true⟩ ("log::trace".toList))
      exit_code := 1 }
    (by rfl)

/-- C8: the scan is deterministic — two runs over the same candidate list
(same contents, same traversal order) differing only in the clock reading
yield the same violation list and the same exit code. -/
theorem scan_deterministic (c1 c2 : Nat) (entries : List FileEntry) :
    (runMain c1 entries).map Report.violations
        = (runMain c2 entries).map Report.violations ∧
    processExit c1 entries = processExit c2 entries := by
  cases h : runScan entries with
  | error msg => simp [runMain, processExit, h]
  | ok p =>
    obtain ⟨n, vs⟩ := p
    simp [runMain, processExit, h, Except.map]

/-- Witness for C8: two runs with different clock readings agree on a
concrete one-file input. -/
theorem scan_deterministic_witness :
    (runMain 0 [⟨⟨"a.rs", true⟩, Except.ok ("log::info".toList)⟩]).map
        Report.violations
      = (runMain 7 [⟨⟨"a.rs", true⟩, Except.ok ("log::info".toList)⟩]).map
        Report.violations ∧
    processExit 0 [⟨⟨"a.rs", true⟩, Except.ok ("log::info".toList)⟩]
      = processExit 7 [⟨⟨"a.rs", true⟩, Except.ok ("log::info".toList)⟩] :=
  scan_deterministic 0 7 [⟨⟨"a.rs", true⟩, Except.ok ("log::info".toList)⟩]

/-- C9: for every match, the byte offsets the reporter slices with —
the byte offset of the match start/end minus the byte offset of the line
start — are the byte lengths of character prefixes of the line, hence
UTF-8 character boundaries of `line_text`, in order and in bounds, so the
three slices of `highlight_match` cannot panic even with multi-byte
characters before the match on the same line. -/
theorem highlight_offsets_char_boundaries (file : RPath) (t : List Char)
    (s e : Nat) (hmem : (s, e) ∈ findIter t) :
    utf8Len (t.take s) - utf8Len (t.take (lineStartOf t s))
        = utf8Len ((mkViolation file t s e).line_text.take
            (mkViolation file t s e).col_start) ∧
    utf8Len (t.take e) - utf8Len (t.take (lineStartOf t s))
        = utf8Len ((mkViolation file t s e).line_text.take
            (mkViolation file t s e).col_end) ∧
    IsCharBoundary (mkViolation file t s e).line_text
        (utf8Len (t.take s) - utf8Len (t.take (lineStartOf t s))) ∧
    IsCharBoundary (mkViolation file t s e).line_text
        (utf8Len (t.take e) - utf8Len (t.take (lineStartOf t s))) ∧
    utf8Len (t.take s) - utf8Len (t.take (lineStartOf t s))
        ≤ utf8Len (t.take e) - utf8Len (t.take (lineStartOf t s)) ∧
    utf8Len (t.take e) - utf8Len (t.take (lineStartOf t s))
        ≤ utf8Len (mkViolation file t s e).line_text := by
  have hls : lineStartOf t s ≤ s := (match_inside_line t hmem).1
  have hse : s ≤ e := (match_inside_line t hmem).2.1
  have hle : e ≤ lineEndOf t s := (match_inside_line t hmem).2.2.1
  have hs1 : utf8Len (t.take s) - utf8Len (t.take (lineStartOf t s))
      = utf8Len ((lineTextOf t s).take (s - lineStartOf t s)) :=
    utf8Len_take_sub t s s hls (le_trans hse hle)
  have he1 : utf8Len (t.take e) - utf8Len (t.take (lineStartOf t s))
      = utf8Len ((lineTextOf t s).take (e - lineStartOf t s)) :=
    utf8Len_take_sub t s e (le_trans hls hse) hle
  have hlenS : s - lineStartOf t s ≤ (lineTextOf t s).length := by
    rw [lineTextOf_length]
    have := le_trans hse hle
    omega
  have hlenE : e - lineStartOf t s ≤ (lineTextOf t s).length := by
    rw [lineTextOf_length]
    omega
  simp only [mkViolation_eq]
  refine ⟨hs1, he1, ⟨s - lineStartOf t s, hlenS, hs1⟩,
    ⟨e - lineStartOf t s, hlenE, he1⟩, ?_, ?_⟩
  · rw [hs1, he1]
    have htt : (lineTextOf t s).take (s - lineStartOf t s)
        = ((lineTextOf t s).take (e - lineStartOf t s)).take
            (s - lineStartOf t s) := by
      rw [List.take_take, inf_eq_left.mpr (by omega)]
    rw [htt]
    exact utf8Len_take_le _ _
  · rw [he1]
    exact utf8Len_take_le _ _

/-- Witness for C9: the byte-boundary facts at a match preceded by a
multi-byte character on the same line. -/
theorem highlight_offsets_char_boundaries_witness :
    utf8Len (("é log::info".toList).take 2)
        - utf8Len (("é log::info".toList).take
            (lineStartOf ("é log::info".toList) 2))
      = utf8Len ((mkViolation ⟨"m.rs", true⟩ ("é log::info".toList) 2 11).line_text.take
          (mkViolation ⟨"m.rs", true⟩ ("é log::info".toList) 2 11).col_start) ∧
    utf8Len (("é log::info".toList).take 11)
        - utf8Len (("é log::info".toList).take
            (lineStartOf ("é log::info".toList) 2))
      = utf8Len ((mkViolation ⟨"m.rs", true⟩ ("é log::info".toList) 2 11).line_text.take
          (mkViolation ⟨"m.rs", true⟩ ("é log::info".toList) 2 11).col_end) ∧
    IsCharBoundary (mkViolation ⟨"m.rs", true⟩ ("é log::info".toList) 2 11).line_text
        (utf8Len (("é log::info".toList).take 2)
          - utf8Len (("é log::info".toList).take
              (lineStartOf ("é log::info".toList) 2))) ∧
    IsCharBoundary (mkViolation ⟨"m.rs", true⟩ ("é log::info".toList) 2 11).line_text
        (utf8Len (("é log::info".toList).take 11)
          - utf8Len (("é log::info".toList).take
              (lineStartOf ("é log::info".toList) 2))) ∧
    utf8Len (("é log::info".toList).take 2)
        - utf8Len (("é log::info".toList).take
            (lineStartOf ("é log::info".toList) 2))
      ≤ utf8Len (("é log::info".toList).take 11)
        - utf8Len (("é log::info".toList).take
            (lineStartOf ("é log::info".toList) 2)) ∧
    utf8Len (("é log::info".toList).take 11)
        - utf8Len (("é log::info".toList).take
            (lineStartOf ("é log::info".toList) 2))
      ≤ utf8Len (mkViolation ⟨"m.rs", true⟩ ("é log::info".toList) 2 11).line_text :=
  highlight_offsets_char_boundaries ⟨"m.rs", true⟩ ("é log::info".toList) 2 11
    (by decide)

/-- C10: a path whose string form is not valid UTF-8 (`to_str` is `none`)
is never exempted: `is_allowed_path` is false for it, and such a candidate
file is read and matched like any other. -/
theorem non_utf8_path_not_exempt (p : RPath) (h : p.validUtf8 = false) :
    is_allowed_path p = false ∧
    ∀ t : List Char, runScan [⟨p, .ok t⟩] = .ok (1, violationsOfText p t) := by
  have h1 : is_allowed_path p = false := by
    unfold is_allowed_path RPath.toStr
    rw [h]
    simp
  refine ⟨h1, fun t => ?_⟩
  rw [runScan, scanFiles]
  simp only [h1, Bool.false_eq_true, if_false]
  rw [scanFiles, List.nil_append]

/-- Witness for C10: a non-UTF-8 path with a match is not exempt and its
match is reported. -/
theorem non_utf8_path_not_exempt_witness :
    is_allowed_path ⟨"src/utils/logging.rs", false⟩ = false ∧
    runScan [⟨⟨"src/utils/logging.rs", false⟩, .ok ("log::info".toList)⟩]
      = .ok (1, violationsOfText ⟨"src/utils/logging.rs", false⟩
          ("log::info".toList)) :=
  ⟨(non_utf8_path_not_exempt ⟨"src/utils/logging.rs", false⟩ rfl).1,
   (non_utf8_path_not_exempt ⟨"src/utils/logging.rs", false⟩ rfl).2
     ("log::info".toList)⟩

end LogCheck
